import Mathlib

/-!
Verification of the DeepGit ranking pipeline (src/tools/rank.py).

The pipeline stages are shallowly embedded as pure Lean functions over a
`Repo` record mirroring the Python candidate dictionaries.  Python floats
are modelled as exact rationals (`ℚ`); external collaborators (the
sentence-transformer encoder, the cross-encoder predictor, and the GitHub
pull-request / commit lookups) are passed in as function parameters, since
the code invokes them as black boxes.  Python's `sorted(..., key=k,
reverse=True)` is a stable descending sort, modelled by Mathlib's
`List.insertionSort` with the relation `k b ≤ k a` (which is exactly the
stable descending order).
-/

namespace DeepGit

/-- One candidate repository, mirroring the dictionaries built in
`fetch_repositories` (keys `title`, `link`, `combined_doc`, `stars`,
`full_name`, `open_issues_count`) and progressively enriched by the later
stages with the optional keys `semantic_similarity`, `cross_encoder_score`,
`pr_count`, `latest_commit_days`, `activity_score`, `final_score`. -/
structure Repo where
  title : String
  link : String
  combined_doc : String
  stars : ℕ
  full_name : String
  open_issues_count : ℕ
  semantic_similarity : Option ℚ := none
  cross_encoder_score : Option ℚ := none
  pr_count : Option ℕ := none
  latest_commit_days : Option ℤ := none
  activity_score : Option ℚ := none
  final_score : Option ℚ := none
deriving Repr, DecidableEq

/-- The sort key `repo.get("semantic_similarity", 0)` used at line 212. -/
def simKey (r : Repo) : ℚ := (r.semantic_similarity).getD 0

/-- The value `repo.get("cross_encoder_score", 0)` used at lines 242 and 294. -/
def ceKey (r : Repo) : ℚ := (r.cross_encoder_score).getD 0

/-- The value `repo.get("activity_score", -100)` used at line 295. -/
def actKey (r : Repo) : ℚ := (r.activity_score).getD (-100)

/-- The sort key `x["final_score"]` used at line 311 (every candidate has the
key when the sort runs; the default is never consulted). -/
def finalKey (r : Repo) : ℚ := (r.final_score).getD 0

/-- Descending order on a rational-valued key: `a` precedes `b` when
`key b ≤ key a`.  Inserting with this relation puts an element *before* the
ties already present, which is exactly the stable behaviour of CPython's
`sorted(..., key=key, reverse=True)`. -/
def descRel {α : Type} (key : α → ℚ) (a b : α) : Prop := key b ≤ key a

instance {α : Type} (key : α → ℚ) : DecidableRel (descRel key) :=
  fun a b => inferInstanceAs (Decidable (key b ≤ key a))

instance {α : Type} (key : α → ℚ) : IsTotal α (descRel key) :=
  ⟨fun a b => le_total (key b) (key a)⟩

instance {α : Type} (key : α → ℚ) : IsTrans α (descRel key) :=
  ⟨fun _ _ _ h1 h2 => le_trans h2 h1⟩

/-- Python's stable descending sort by a key. -/
def sortDesc {α : Type} (key : α → ℚ) (l : List α) : List α :=
  l.insertionSort (descRel key)

/-- Python's `min` over a list of floats (left fold; unspecified on `[]`,
where CPython raises `ValueError`). -/
def listMin : List ℚ → ℚ
  | [] => 0
  | x :: xs => xs.foldl min x

/-- Python's `max` over a list of floats (left fold; unspecified on `[]`,
where CPython raises `ValueError`). -/
def listMax : List ℚ → ℚ
  | [] => 0
  | x :: xs => xs.foldl max x

/-- The `normalize` helper defined inside `final_ranking` (lines 301-304). -/
def normalize (val min_val max_val : ℚ) : ℚ :=
  if max_val - min_val = 0 then 0.5
  else (val - min_val) / (max_val - min_val)

/-!
### Node 2: dense retrieval (lines 173-215)

The sentence-transformer encoder composed with the L2 normalisation of
lines 190-200 is the collaborator parameter `encode` (the normalisation is
a per-vector rescaling by `1/(‖v‖+1e-10)`; its real-valued square root is
owned by the numeric collaborator, and no claim depends on the scaling).
FAISS `IndexFlatIP.search` returns the `k` indices of largest inner
product, ordered by descending score, lowest index first among ties.
-/

/-- Inner product of two embedding vectors (FAISS `IndexFlatIP`). -/
def inner_product (v w : List ℚ) : ℚ := (List.zipWith (fun a b => a * b) v w).sum

/-- The index array `I[0]` returned by `index.search(query, k)`: the `k`
document indices of largest inner product, descending, stable in index. -/
def topKIndices (sims : List ℚ) (k : ℕ) : List ℕ :=
  ((sortDesc (fun p => p.2) ((List.range sims.length).zip sims)).map Prod.fst).take k

/-- The loop `for idx, score in zip(I[0], D[0]): repositories[idx]["semantic_similarity"] = score`
(lines 208-209), written as an index-tracking map: the repo at position `i`
gets its similarity iff `i` is among the returned indices. -/
def annotateSimsFrom (sims : List ℚ) (topIdx : List ℕ) : ℕ → List Repo → List Repo
  | _, [] => []
  | i, r :: rs =>
      (if i ∈ topIdx then { r with semantic_similarity := some (sims.getD i 0) } else r)
        :: annotateSimsFrom sims topIdx (i + 1) rs

def annotateSims (repositories : List Repo) (sims : List ℚ) (topIdx : List ℕ) : List Repo :=
  annotateSimsFrom sims topIdx 0 repositories

/-- `dense_retrieval` (lines 173-215): on an empty corpus return `[]`
without consulting `encode`; otherwise score the top
`min(dense_retrieval_k, n)` documents and sort **all** repositories by
`repo.get("semantic_similarity", 0)` descending. -/
def dense_retrieval (encode : String → List ℚ) (user_query : String)
    (dense_retrieval_k : ℕ) (repositories : List Repo) : List Repo :=
  let docs := repositories.map (fun r => r.combined_doc)
  if docs.isEmpty then []
  else
    let doc_embeddings := docs.map encode
    let query_embedding := encode user_query
    let k := min dense_retrieval_k doc_embeddings.length
    let sims := doc_embeddings.map (fun v => inner_product v query_embedding)
    let topIdx := topKIndices sims k
    sortDesc simKey (annotateSims repositories sims topIdx)

/-!
### Node 3: cross-encoder reranking (lines 220-233)

The collaborator `predict` is the batch call `cross_encoder.predict(pairs)`;
the §6 contract makes it order-preserving with one score per input pair,
which theorems take as the hypothesis `(predict ps).length = ps.length`.
-/

/-- The body of `cross_encoder_rerank_func` up to the sort: build the
`[query, doc]` pairs for the capped candidate list, call the collaborator,
and write score `i` onto candidate `i` (the `zip(candidates, scores)`
mutation loop of lines 228-229). -/
def scoredCandidates (predict : List (String × String) → List ℚ)
    (user_query : String) (semantic_ranked : List Repo) : List Repo :=
  let candidates := semantic_ranked.take 100
  let pairs := candidates.map (fun c => (user_query, c.combined_doc))
  let scores := predict pairs
  List.zipWith (fun c s => { c with cross_encoder_score := some s }) candidates scores

/-- `cross_encoder_rerank` (lines 220-233): rerank
`state.semantic_ranked[:100]`, sort descending by `cross_encoder_score`,
keep the first `cross_encoder_top_n`. -/
def cross_encoder_rerank (predict : List (String × String) → List ℚ)
    (user_query : String) (semantic_ranked : List Repo)
    (cross_encoder_top_n : ℕ) : List Repo :=
  (sortDesc ceKey (scoredCandidates predict user_query semantic_ranked)).take
    cross_encoder_top_n

/-!
### Node 4: quality filtering (lines 238-249)
-/

/-- The `continue` condition of line 242: drop a repo iff
`repo["stars"] < min_stars and repo.get("cross_encoder_score", 0) < cross_encoder_threshold`. -/
def dropCond (min_stars : ℤ) (cross_encoder_threshold : ℚ) (repo : Repo) : Bool :=
  decide ((repo.stars : ℤ) < min_stars) && decide (ceKey repo < cross_encoder_threshold)

/-- `filter_candidates` (lines 238-249): keep the survivors of `dropCond`;
if none survive, fall back to the unfiltered input list. -/
def filter_candidates (min_stars : ℤ) (cross_encoder_threshold : ℚ)
    (reranked_candidates : List Repo) : List Repo :=
  let filtered := reranked_candidates.filter
    (fun repo => !(dropCond min_stars cross_encoder_threshold repo))
  if filtered.isEmpty then reranked_candidates else filtered

/-!
### Node 5: activity analysis (lines 254-287)

Collaborators: `pr_lookup name` is `len(pr_response.json())` when the pulls
request succeeds (`none` models a non-200 status, from which the code takes
`pr_count = 0`); `commit_lookup name` is `none` on a non-200 status,
`some none` on an empty commit list, and `some (some ts)` with `ts` the
committer timestamp in seconds otherwise.  `now` is `datetime.utcnow()` in
seconds; `timedelta.days` is floor division of the difference by 86400.
-/

/-- `(datetime.datetime.utcnow() - commit_date).days` (line 273). -/
def daysBetween (now commit_ts : ℤ) : ℤ := (now - commit_ts).fdiv 86400

/-- `analyze_repository_activity` (lines 259-281): returns the triple
`(pr_count, latest_commit_days, activity_score)`. -/
def analyze_repository_activity (pr_lookup : String → Option ℕ)
    (commit_lookup : String → Option (Option ℤ)) (now : ℤ) (repo : Repo) :
    ℕ × ℤ × ℚ :=
  let pr_count : ℕ := (pr_lookup repo.full_name).getD 0
  let days_diff : ℤ :=
    match commit_lookup repo.full_name with
    | some (some ts) => daysBetween now ts
    | some none => 999
    | none => 999
  let open_issues : ℤ := repo.open_issues_count
  let non_pr_issues : ℤ := max 0 (open_issues - pr_count)
  let activity_score : ℚ :=
    3 * (pr_count : ℚ) + (non_pr_issues : ℚ) - (days_diff : ℚ) / 30
  (pr_count, days_diff, activity_score)

/-- `analyze_activity` (lines 254-287): `repo.update(activity_data)` for each
filtered candidate, in order. -/
def analyze_activity (pr_lookup : String → Option ℕ)
    (commit_lookup : String → Option (Option ℤ)) (now : ℤ)
    (filtered_candidates : List Repo) : List Repo :=
  filtered_candidates.map (fun repo =>
    let a := analyze_repository_activity pr_lookup commit_lookup now repo
    { repo with
      pr_count := some a.1
      latest_commit_days := some a.2.1
      activity_score := some a.2.2 })

/-!
### Node 6: final ranking (lines 292-313)

`math.log(stars + 1)` is a real-valued primitive of the numeric
collaborator; it enters as the parameter `log : ℕ → ℚ` applied to
`stars + 1`, strictly monotone where a claim needs it.
-/

/-- The star signal `math.log(repo.get("stars", 0) + 1)` (lines 296, 309). -/
def logStarKey (log : ℕ → ℚ) (r : Repo) : ℚ := log (r.stars + 1)

/-- The per-repo fused score assigned at line 310, with the four min/max
pairs taken over the full filtered candidate list (lines 293-300). -/
def fusedScore (log : ℕ → ℚ) (filtered_candidates : List Repo) (repo : Repo) : ℚ :=
  let semantic_scores := filtered_candidates.map simKey
  let cross_encoder_scores := filtered_candidates.map ceKey
  let activity_scores := filtered_candidates.map actKey
  let star_scores := filtered_candidates.map (logStarKey log)
  let norm_sem := normalize (simKey repo) (listMin semantic_scores) (listMax semantic_scores)
  let norm_ce := normalize (ceKey repo) (listMin cross_encoder_scores) (listMax cross_encoder_scores)
  let norm_act := normalize (actKey repo) (listMin activity_scores) (listMax activity_scores)
  let norm_star := normalize (logStarKey log repo) (listMin star_scores) (listMax star_scores)
  0.3 * norm_ce + 0.2 * norm_sem + 0.2 * norm_act + 0.3 * norm_star

/-- The mutation loop of lines 305-310: every candidate receives its fused
score under `final_score`. -/
def scoredList (log : ℕ → ℚ) (filtered_candidates : List Repo) : List Repo :=
  filtered_candidates.map (fun repo =>
    { repo with final_score := some (fusedScore log filtered_candidates repo) })

/-- `final_ranking` (lines 292-313).  On an empty candidate list the code
raises `ValueError` at `min(semantic_scores)` (line 297), modelled as
`none`; otherwise it sorts the scored candidates descending by
`final_score` (stable). -/
def final_ranking (log : ℕ → ℚ) (filtered_candidates : List Repo) :
    Option (List Repo) :=
  if filtered_candidates.isEmpty then none
  else some (sortDesc finalKey (scoredList log filtered_candidates))

/-!
### Concrete fixtures used by witnesses and counterexamples
-/

/-- A fresh candidate as produced by `fetch_repositories`. -/
def cA : Repo :=
  { title := "a", link := "la", combined_doc := "da", stars := 10,
    full_name := "oa", open_issues_count := 3 }

/-- A second fresh candidate. -/
def cB : Repo :=
  { title := "b", link := "lb", combined_doc := "db", stars := 5,
    full_name := "ob", open_issues_count := 1 }

/-- A fully scored candidate. -/
def wA : Repo :=
  { cA with semantic_similarity := some 1, cross_encoder_score := some 2,
            activity_score := some 3 }

/-- A fully scored candidate that strictly dominates `wA` on every raw
signal. -/
def wB : Repo :=
  { title := "b", link := "lb", combined_doc := "db", stars := 20,
    full_name := "ob", open_issues_count := 1,
    semantic_similarity := some 2, cross_encoder_score := some 5,
    activity_score := some 7 }

/-- The spec §8 filter-scenario candidate B: few stars but a strong
reranker score. -/
def sB : Repo := { cB with cross_encoder_score := some 6 }

/-!
### Helper lemmas: `listMin` / `listMax`
-/

lemma le_foldl_max (l : List ℚ) : ∀ a : ℚ, a ≤ l.foldl max a := by
  induction l with
  | nil => intro a; exact le_refl a
  | cons b l ih =>
      intro a
      exact le_trans (le_max_left a b) (ih (max a b))

lemma mem_le_foldl_max (l : List ℚ) : ∀ (a x : ℚ), x ∈ l → x ≤ l.foldl max a := by
  induction l with
  | nil => intro a x hx; cases hx
  | cons b l ih =>
      intro a x hx
      rcases List.mem_cons.mp hx with rfl | hx
      · exact le_trans (le_max_right a x) (le_foldl_max l (max a x))
      · exact ih (max a b) x hx

lemma foldl_max_mem (l : List ℚ) : ∀ a : ℚ, l.foldl max a = a ∨ l.foldl max a ∈ l := by
  induction l with
  | nil => intro a; exact Or.inl rfl
  | cons b l ih =>
      intro a
      rcases ih (max a b) with h | h
      · rcases max_choice a b with hab | hab
        · exact Or.inl (by rw [List.foldl_cons, h, hab])
        · exact Or.inr (by rw [List.foldl_cons, h, hab]; exact List.mem_cons_self b l)
      · exact Or.inr (List.mem_cons_of_mem b h)

lemma foldl_min_le (l : List ℚ) : ∀ a : ℚ, l.foldl min a ≤ a := by
  induction l with
  | nil => intro a; exact le_refl a
  | cons b l ih =>
      intro a
      exact le_trans (ih (min a b)) (min_le_left a b)

lemma foldl_min_le_mem (l : List ℚ) : ∀ (a x : ℚ), x ∈ l → l.foldl min a ≤ x := by
  induction l with
  | nil => intro a x hx; cases hx
  | cons b l ih =>
      intro a x hx
      rcases List.mem_cons.mp hx with rfl | hx
      · exact le_trans (foldl_min_le l (min a x)) (min_le_right a x)
      · exact ih (min a b) x hx

lemma foldl_min_mem (l : List ℚ) : ∀ a : ℚ, l.foldl min a = a ∨ l.foldl min a ∈ l := by
  induction l with
  | nil => intro a; exact Or.inl rfl
  | cons b l ih =>
      intro a
      rcases ih (min a b) with h | h
      · rcases min_choice a b with hab | hab
        · exact Or.inl (by rw [List.foldl_cons, h, hab])
        · exact Or.inr (by rw [List.foldl_cons, h, hab]; exact List.mem_cons_self b l)
      · exact Or.inr (List.mem_cons_of_mem b h)

lemma mem_le_listMax {l : List ℚ} {x : ℚ} (hx : x ∈ l) : x ≤ listMax l := by
  cases l with
  | nil => cases hx
  | cons y ys =>
      rcases List.mem_cons.mp hx with rfl | hx
      · exact le_foldl_max ys x
      · exact mem_le_foldl_max ys y x hx

lemma listMax_mem {l : List ℚ} (h : l ≠ []) : listMax l ∈ l := by
  cases l with
  | nil => exact absurd rfl h
  | cons y ys =>
      rcases foldl_max_mem ys y with h' | h'
      · rw [listMax, h']; exact List.mem_cons_self y ys
      · exact List.mem_cons_of_mem y h'

lemma listMin_le_mem {l : List ℚ} {x : ℚ} (hx : x ∈ l) : listMin l ≤ x := by
  cases l with
  | nil => cases hx
  | cons y ys =>
      rcases List.mem_cons.mp hx with rfl | hx
      · exact foldl_min_le ys x
      · exact foldl_min_le_mem ys y x hx

/-!
### Claim C5: the `normalize` contract
-/

/-- Claim C5: `normalize` returns `(v - min) / (max - min)` when
`max > min`; over any set with `min ≤ v ≤ max < ∞` the output lies in
`[0,1]`, with the max mapping to `1` and the min to `0`; and when
`max = min` it returns exactly `0.5` for every value. -/
theorem normalize_contract (v mn mx : ℚ) :
    (mn < mx → normalize v mn mx = (v - mn) / (mx - mn)) ∧
    (mn < mx → mn ≤ v → v ≤ mx →
      0 ≤ normalize v mn mx ∧ normalize v mn mx ≤ 1) ∧
    (mn < mx → normalize mx mn mx = 1 ∧ normalize mn mn mx = 0) ∧
    (∀ u : ℚ, normalize u mn mn = 0.5) := by
  have hne : mn < mx → mx - mn ≠ 0 := fun h => sub_ne_zero_of_ne (ne_of_gt h)
  refine ⟨fun h => ?_, fun h h1 h2 => ?_, fun h => ⟨?_, ?_⟩, fun u => ?_⟩
  · rw [normalize, if_neg (hne h)]
  · rw [normalize, if_neg (hne h)]
    constructor
    · exact div_nonneg (sub_nonneg.mpr h1) (le_of_lt (sub_pos.mpr h))
    · exact (div_le_one (sub_pos.mpr h)).mpr (sub_le_sub_right h2 mn)
  · rw [normalize, if_neg (hne h), div_self (hne h)]
  · rw [normalize, if_neg (hne h), sub_self, zero_div]
  · rw [normalize, if_pos (sub_self mn)]

/-- Witness for C5 at `v = 1, mn = 0, mx = 2` (and the degenerate case at
`mn = mx = 3`). -/
theorem normalize_contract_witness :
    normalize 1 0 2 = (1 - 0) / (2 - 0) ∧
    (0 ≤ normalize 1 0 2 ∧ normalize 1 0 2 ≤ 1) ∧
    (normalize 2 0 2 = 1 ∧ normalize 0 0 2 = 0) ∧
    normalize 7 3 3 = 0.5 := by
  obtain ⟨h1, h2, h3, _⟩ := normalize_contract 1 0 2
  obtain ⟨_, _, _, h4⟩ := normalize_contract 0 3 3
  exact ⟨h1 (by norm_num), h2 (by norm_num) (by norm_num) (by norm_num),
    h3 (by norm_num), h4 7⟩

/-!
### Claim C2: empty-input behaviour (code bug in `final_ranking`)
-/

/-- Claim C2 (code bug): `final_ranking` does **not** map an empty
candidate list to an empty output — `min(semantic_scores)` at line 297
raises `ValueError` on the empty list (modelled as `none`), whereas the
claim requires every stage, the final fusion ranking included, to produce
an empty output without erroring. -/
theorem final_ranking_errors_on_empty_input (log : ℕ → ℚ) :
    final_ranking log [] = none := rfl

/-!
### Claim C6: the activity-score formula
-/

/-- Claim C6: `analyze_repository_activity` returns
`activity_score = 3*pr_count + max(0, open_issues - pr_count) - days/30`;
`latest_commit_days` is the floor of the day difference when a commit is
found and defaults to `999` whenever the commit lookup fails or returns no
commits. -/
theorem activity_score_formula (pr_lookup : String → Option ℕ)
    (commit_lookup : String → Option (Option ℤ)) (now : ℤ) (repo : Repo) :
    (analyze_repository_activity pr_lookup commit_lookup now repo).2.2 =
        3 * ((analyze_repository_activity pr_lookup commit_lookup now repo).1 : ℚ)
        + ((max 0 ((repo.open_issues_count : ℤ)
            - (analyze_repository_activity pr_lookup commit_lookup now repo).1) : ℤ) : ℚ)
        - ((analyze_repository_activity pr_lookup commit_lookup now repo).2.1 : ℚ) / 30 ∧
    ((commit_lookup repo.full_name = none ∨ commit_lookup repo.full_name = some none) →
        (analyze_repository_activity pr_lookup commit_lookup now repo).2.1 = 999) ∧
    (∀ ts : ℤ, commit_lookup repo.full_name = some (some ts) →
        (analyze_repository_activity pr_lookup commit_lookup now repo).2.1 =
          (now - ts).fdiv 86400) := by
  refine ⟨rfl, fun h => ?_, fun ts h => ?_⟩
  · rcases h with h | h <;> simp [analyze_repository_activity, h]
  · simp [analyze_repository_activity, h, daysBetween]

/-- Witness for C6: a candidate whose commit lookup fails gets
`latest_commit_days = 999` and the formula holds. -/
theorem activity_score_formula_witness :
    (analyze_repository_activity (fun _ => some 7) (fun _ => none) 0 cA).2.2 =
        3 * ((analyze_repository_activity (fun _ => some 7) (fun _ => none) 0 cA).1 : ℚ)
        + ((max 0 ((cA.open_issues_count : ℤ)
            - (analyze_repository_activity (fun _ => some 7) (fun _ => none) 0 cA).1) : ℤ) : ℚ)
        - ((analyze_repository_activity (fun _ => some 7) (fun _ => none) 0 cA).2.1 : ℚ) / 30 ∧
    (analyze_repository_activity (fun _ => some 7) (fun _ => none) 0 cA).2.1 = 999 := by
  obtain ⟨h1, h2, _⟩ := activity_score_formula (fun _ => some 7) (fun _ => none) 0 cA
  exact ⟨h1, h2 (Or.inl rfl)⟩

/-!
### Claim C10: frame property of `analyze_activity`
-/

/-- Claim C10: the activity stage only writes `pr_count`,
`latest_commit_days` and `activity_score`; every other field of every
candidate is unchanged, and the list keeps its cardinality and order
(pointwise correspondence via `Forall₂`). -/
theorem analyze_activity_frame (pr_lookup : String → Option ℕ)
    (commit_lookup : String → Option (Option ℤ)) (now : ℤ) (l : List Repo) :
    (analyze_activity pr_lookup commit_lookup now l).length = l.length ∧
    List.Forall₂ (fun a b =>
      b.title = a.title ∧ b.link = a.link ∧ b.combined_doc = a.combined_doc ∧
      b.stars = a.stars ∧ b.full_name = a.full_name ∧
      b.open_issues_count = a.open_issues_count ∧
      b.semantic_similarity = a.semantic_similarity ∧
      b.cross_encoder_score = a.cross_encoder_score ∧
      b.final_score = a.final_score ∧
      b.pr_count =
        some (analyze_repository_activity pr_lookup commit_lookup now a).1 ∧
      b.latest_commit_days =
        some (analyze_repository_activity pr_lookup commit_lookup now a).2.1 ∧
      b.activity_score =
        some (analyze_repository_activity pr_lookup commit_lookup now a).2.2)
      l (analyze_activity pr_lookup commit_lookup now l) := by
  refine ⟨by simp [analyze_activity], ?_⟩
  rw [analyze_activity]
  exact List.forall₂_map_right_iff.mpr (List.forall₂_same.mpr (fun x _ =>
    ⟨rfl, rfl, rfl, rfl, rfl, rfl, rfl, rfl, rfl, rfl, rfl, rfl⟩))

/-!
### Claims C3 and C9: the quality filter
-/

lemma dropCond_iff (ms : ℤ) (thr : ℚ) (r : Repo) :
    dropCond ms thr r = true ↔ ((r.stars : ℤ) < ms ∧ ceKey r < thr) := by
  simp [dropCond]

/-- Claim C3: the filter output is non-empty for non-empty input; when at
least one candidate survives the drop rule the output is exactly the list
of survivors (a candidate is removed iff it is low on **both** signals);
when the rule would drop everyone the stage returns the input unchanged. -/
theorem filter_candidates_postcondition (ms : ℤ) (thr : ℚ) (l : List Repo)
    (hne : l ≠ []) :
    filter_candidates ms thr l ≠ [] ∧
    ((∃ r ∈ l, ¬ ((r.stars : ℤ) < ms ∧ ceKey r < thr)) →
      filter_candidates ms thr l = l.filter (fun r => !(dropCond ms thr r))) ∧
    ((∀ r ∈ l, (r.stars : ℤ) < ms ∧ ceKey r < thr) →
      filter_candidates ms thr l = l) := by
  by_cases hF : (l.filter (fun r => !(dropCond ms thr r))).isEmpty
  · have hout : filter_candidates ms thr l = l := by
      rw [filter_candidates, if_pos hF]
    refine ⟨by rw [hout]; exact hne, fun h => ?_, fun _ => hout⟩
    exfalso
    obtain ⟨r, hr, hcond⟩ := h
    have hmem : r ∈ l.filter (fun r => !(dropCond ms thr r)) := by
      refine List.mem_filter.mpr ⟨hr, ?_⟩
      simp only [Bool.not_eq_true', Bool.not_eq_true]
      exact Bool.not_eq_true (dropCond ms thr r) ▸ (fun hh => hcond ((dropCond_iff ms thr r).mp hh))
    rw [List.isEmpty_iff] at hF
    rw [hF] at hmem
    cases hmem
  · have hout : filter_candidates ms thr l =
        l.filter (fun r => !(dropCond ms thr r)) := by
      rw [filter_candidates, if_neg hF]
    refine ⟨?_, fun _ => hout, fun hall => ?_⟩
    · rw [hout]
      intro hnil
      exact hF (by rw [hnil]; rfl)
    · exfalso
      apply hF
      rw [List.isEmpty_iff, List.filter_eq_nil_iff]
      intro r hr
      simp only [Bool.not_eq_true', Bool.not_eq_true]
      simp [dropCond_iff ms thr r, hall r hr]

/-- Witness for C3: the spec §8 scenario — A(stars 10, score 2),
B(stars 5, score 6), minStars 50, threshold 5.5 — keeps exactly B. -/
theorem filter_candidates_postcondition_witness :
    filter_candidates 50 (5.5 : ℚ) [wA, sB] ≠ [] ∧
    filter_candidates 50 (5.5 : ℚ) [wA, sB] =
      [wA, sB].filter (fun r => !(dropCond 50 (5.5 : ℚ) r)) := by
  obtain ⟨h1, h2, _⟩ :=
    filter_candidates_postcondition 50 (5.5 : ℚ) [wA, sB] (by simp)
  refine ⟨h1, h2 ⟨sB, by simp, ?_⟩⟩
  norm_num [ceKey, sB, cB]

/-- Claim C9: the filter output is a subsequence of its input (survivors
keep their relative order); in the fallback case it is the input itself. -/
theorem filter_candidates_subsequence (ms : ℤ) (thr : ℚ) (l : List Repo) :
    List.Sublist (filter_candidates ms thr l) l ∧
    ((∀ r ∈ l, (r.stars : ℤ) < ms ∧ ceKey r < thr) →
      filter_candidates ms thr l = l) := by
  by_cases hF : (l.filter (fun r => !(dropCond ms thr r))).isEmpty
  · have hout : filter_candidates ms thr l = l := by
      rw [filter_candidates, if_pos hF]
    exact ⟨by rw [hout], fun _ => hout⟩
  · have hout : filter_candidates ms thr l =
        l.filter (fun r => !(dropCond ms thr r)) := by
      rw [filter_candidates, if_neg hF]
    refine ⟨by rw [hout]; exact List.filter_sublist l, fun hall => ?_⟩
    exfalso
    apply hF
    rw [List.isEmpty_iff, List.filter_eq_nil_iff]
    intro r hr
    simp only [Bool.not_eq_true', Bool.not_eq_true]
    simp [dropCond_iff ms thr r, hall r hr]

/-- Witness for C9: a single all-low candidate triggers the fallback and
the output is the input list itself (hence a subsequence). -/
theorem filter_candidates_subsequence_witness :
    List.Sublist (filter_candidates 50 (5.5 : ℚ) [wA]) [wA] ∧
    filter_candidates 50 (5.5 : ℚ) [wA] = [wA] := by
  obtain ⟨h1, h2⟩ := filter_candidates_subsequence 50 (5.5 : ℚ) [wA]
  refine ⟨h1, h2 ?_⟩
  intro r hr
  rw [List.mem_singleton] at hr
  subst hr
  norm_num [ceKey, wA, cA]

/-!
### Helper lemmas: the stable descending sort
-/

lemma sortDesc_perm {α : Type} (key : α → ℚ) (l : List α) :
    List.Perm (sortDesc key l) l :=
  List.perm_insertionSort (descRel key) l

lemma sortDesc_sorted {α : Type} (key : α → ℚ) (l : List α) :
    List.Sorted (descRel key) (sortDesc key l) :=
  List.sorted_insertionSort (descRel key) l

lemma sortDesc_length {α : Type} (key : α → ℚ) (l : List α) :
    (sortDesc key l).length = l.length :=
  (sortDesc_perm key l).length_eq

/-- Inserting `a` with the descending relation walks past exactly the
elements with key strictly greater than `key a`, so the sub-list of
elements with any fixed key value `q` is preserved up to consing `a` in
front when `key a = q` — the heart of stability. -/
lemma filter_orderedInsert_key {α : Type} (key : α → ℚ) (q : ℚ) (a : α) :
    ∀ l : List α,
      (List.orderedInsert (descRel key) a l).filter (fun x => decide (key x = q)) =
        if key a = q then a :: l.filter (fun x => decide (key x = q))
        else l.filter (fun x => decide (key x = q))
  | [] => by
      by_cases h : key a = q <;> simp [List.orderedInsert, h]
  | b :: l => by
      by_cases hab : descRel key a b
      · rw [List.orderedInsert, if_pos hab]
        by_cases h : key a = q <;> simp [List.filter_cons, h]
      · rw [List.orderedInsert, if_neg hab]
        have hb : key a < key b := not_le.mp hab
        rw [List.filter_cons, List.filter_cons]
        by_cases hbq : key b = q
        · by_cases haq : key a = q
          · exfalso
            rw [haq, hbq] at hb
            exact lt_irrefl q hb
          · simp [hbq, haq, filter_orderedInsert_key key q a l]
        · by_cases haq : key a = q <;>
            simp [hbq, haq, filter_orderedInsert_key key q a l]

/-- Stability of the descending sort: for each key value `q`, the
elements with that key appear in the output in their input order. -/
lemma sortDesc_filter_key {α : Type} (key : α → ℚ) (q : ℚ) :
    ∀ l : List α,
      (sortDesc key l).filter (fun x => decide (key x = q)) =
        l.filter (fun x => decide (key x = q))
  | [] => rfl
  | a :: l => by
      rw [sortDesc, List.insertionSort, filter_orderedInsert_key]
      rw [show List.insertionSort (descRel key) l = sortDesc key l from rfl]
      rw [sortDesc_filter_key key q l]
      by_cases h : key a = q <;> simp [List.filter_cons, h]

/-!
### Claim C7: fusion output order, cardinality, stability
-/

/-- Claim C7: on a non-empty input, `final_ranking` succeeds and returns a
permutation of the score-annotated input (same cardinality, nothing
dropped), sorted descending by fused score, and candidates with equal
fused scores keep the relative order of the previous stage's output. -/
theorem final_ranking_order_cardinality_stability (log : ℕ → ℚ)
    (l : List Repo) (hne : l ≠ []) :
    ∃ out, final_ranking log l = some out ∧
      out.length = l.length ∧
      List.Perm out (scoredList log l) ∧
      List.Sorted (descRel finalKey) out ∧
      ∀ q : ℚ, out.filter (fun r => decide (finalKey r = q)) =
        (scoredList log l).filter (fun r => decide (finalKey r = q)) := by
  have hE : l.isEmpty = false := by
    cases l with
    | nil => exact absurd rfl hne
    | cons a l => rfl
  refine ⟨sortDesc finalKey (scoredList log l), ?_, ?_, sortDesc_perm _ _,
    sortDesc_sorted _ _, fun q => sortDesc_filter_key _ _ _⟩
  · rw [final_ranking, hE]
    rfl
  · rw [sortDesc_length, scoredList, List.length_map]

/-- Witness for C7 on a concrete two-candidate list. -/
theorem final_ranking_order_cardinality_stability_witness :
    ∃ out, final_ranking (fun n => (n : ℚ)) [wA, wB] = some out ∧
      out.length = ([wA, wB] : List Repo).length ∧
      List.Perm out (scoredList (fun n => (n : ℚ)) [wA, wB]) ∧
      List.Sorted (descRel finalKey) out ∧
      ∀ q : ℚ, out.filter (fun r => decide (finalKey r = q)) =
        (scoredList (fun n => (n : ℚ)) [wA, wB]).filter
          (fun r => decide (finalKey r = q)) :=
  final_ranking_order_cardinality_stability (fun n => (n : ℚ)) [wA, wB] (by simp)

/-!
### Claim C8: reranker cap and postcondition
-/

lemma zipWith_annot_erase : ∀ (cs : List Repo) (ss : List ℚ),
    ss.length = cs.length →
    (List.zipWith (fun c s => { c with cross_encoder_score := some s }) cs ss).map
        (fun r => { r with cross_encoder_score := none }) =
      cs.map (fun r => { r with cross_encoder_score := none })
  | [], [], _ => rfl
  | [], _ :: _, h => by simp at h
  | _ :: _, [], h => by simp at h
  | c :: cs, s :: ss, h => by
      simp only [List.zipWith_cons_cons, List.map_cons, List.cons.injEq]
      exact ⟨True.intro, zipWith_annot_erase cs ss (by simpa using h)⟩

lemma zipWith_annot_scores : ∀ (cs : List Repo) (ss : List ℚ),
    ss.length = cs.length →
    (List.zipWith (fun c s => { c with cross_encoder_score := some s }) cs ss).map
        ceKey = ss
  | [], [], _ => rfl
  | [], _ :: _, h => by simp at h
  | _ :: _, [], h => by simp at h
  | c :: cs, s :: ss, h => by
      simp only [List.zipWith_cons_cons, List.map_cons, List.cons.injEq]
      exact ⟨rfl, zipWith_annot_scores cs ss (by simpa using h)⟩

lemma scoredCandidates_length (predict : List (String × String) → List ℚ)
    (q : String) (l : List Repo)
    (hlen : ∀ ps, (predict ps).length = ps.length) :
    (scoredCandidates predict q l).length = min 100 l.length := by
  simp [scoredCandidates, List.length_zipWith, hlen, List.length_take]

/-- Claim C8: the reranking stage (i) returns
`min(topN, min(100, |input|))` candidates — it scores exactly the first
100 candidates of the retrieval output, a hard cap: (iii) the output is
unchanged whenever the first 100 input candidates are unchanged; (iv) the
scored pool is exactly the first 100 input candidates, in order, apart
from the written score field; (v) candidate `i` receives the `i`-th
collaborator score (order-preserving assignment); (ii) the output is
sorted descending by reranker score, (vi) is drawn from the scored
pool, and (vii) is a **top-N selection**: the scored pool splits, up to
permutation, into the output plus a remainder, and every candidate of the
remainder scores no higher than any returned candidate — so the stage
returns the highest-scoring `N` of the capped pool.  The hypothesis is
the §6 collaborator contract: one score per input pair. -/
theorem cross_encoder_rerank_cap_postcondition
    (predict : List (String × String) → List ℚ) (q : String) (l : List Repo)
    (topN : ℕ) (hlen : ∀ ps, (predict ps).length = ps.length) :
    (cross_encoder_rerank predict q l topN).length = min topN (min 100 l.length) ∧
    List.Sorted (descRel ceKey) (cross_encoder_rerank predict q l topN) ∧
    (∀ l₂ : List Repo, l₂.take 100 = l.take 100 →
      cross_encoder_rerank predict q l₂ topN = cross_encoder_rerank predict q l topN) ∧
    (scoredCandidates predict q l).map (fun r => { r with cross_encoder_score := none }) =
      (l.take 100).map (fun r => { r with cross_encoder_score := none }) ∧
    (scoredCandidates predict q l).map ceKey =
      predict ((l.take 100).map (fun c => (q, c.combined_doc))) ∧
    List.Subperm (cross_encoder_rerank predict q l topN)
      (scoredCandidates predict q l) ∧
    ∃ rest : List Repo,
      List.Perm (cross_encoder_rerank predict q l topN ++ rest)
        (scoredCandidates predict q l) ∧
      ∀ a ∈ cross_encoder_rerank predict q l topN, ∀ b ∈ rest,
        ceKey b ≤ ceKey a := by
  have hslen : (predict ((l.take 100).map fun c => (q, c.combined_doc))).length =
      (l.take 100).length := by
    rw [hlen, List.length_map]
  refine ⟨?_, ?_, ?_, ?_, ?_, ?_, ?_⟩
  · rw [cross_encoder_rerank, List.length_take, sortDesc_length,
      scoredCandidates_length predict q l hlen]
  · exact List.Pairwise.sublist (List.take_sublist _ _) (sortDesc_sorted _ _)
  · intro l₂ h2
    rw [cross_encoder_rerank, cross_encoder_rerank, scoredCandidates,
      scoredCandidates, h2]
  · exact zipWith_annot_erase _ _ hslen
  · exact zipWith_annot_scores _ _ hslen
  · exact List.Subperm.trans (List.Sublist.subperm (List.take_sublist _ _))
      (sortDesc_perm _ _).subperm
  · refine ⟨(sortDesc ceKey (scoredCandidates predict q l)).drop topN, ?_, ?_⟩
    · rw [cross_encoder_rerank, List.take_append_drop]
      exact sortDesc_perm _ _
    · intro a ha b hb
      exact List.Sorted.rel_of_mem_take_of_mem_drop
        (sortDesc_sorted ceKey (scoredCandidates predict q l)) ha hb

/-- Witness for C8 with a concrete order-preserving collaborator. -/
theorem cross_encoder_rerank_cap_postcondition_witness :
    (cross_encoder_rerank (fun ps => ps.map (fun p => (p.2.length : ℚ))) "q"
        [cA, cB] 1).length = min 1 (min 100 ([cA, cB] : List Repo).length) ∧
    List.Sorted (descRel ceKey)
      (cross_encoder_rerank (fun ps => ps.map (fun p => (p.2.length : ℚ))) "q"
        [cA, cB] 1) ∧
    (∀ l₂ : List Repo, l₂.take 100 = ([cA, cB] : List Repo).take 100 →
      cross_encoder_rerank (fun ps => ps.map (fun p => (p.2.length : ℚ))) "q" l₂ 1 =
        cross_encoder_rerank (fun ps => ps.map (fun p => (p.2.length : ℚ))) "q"
          [cA, cB] 1) ∧
    (scoredCandidates (fun ps => ps.map (fun p => (p.2.length : ℚ))) "q"
        [cA, cB]).map (fun r => { r with cross_encoder_score := none }) =
      (([cA, cB] : List Repo).take 100).map
        (fun r => { r with cross_encoder_score := none }) ∧
    (scoredCandidates (fun ps => ps.map (fun p => (p.2.length : ℚ))) "q"
        [cA, cB]).map ceKey =
      (fun ps => ps.map (fun p => ((p.2 : String).length : ℚ)))
        ((([cA, cB] : List Repo).take 100).map (fun c => ("q", c.combined_doc))) ∧
    List.Subperm
      (cross_encoder_rerank (fun ps => ps.map (fun p => (p.2.length : ℚ))) "q"
        [cA, cB] 1)
      (scoredCandidates (fun ps => ps.map (fun p => (p.2.length : ℚ))) "q"
        [cA, cB]) ∧
    (∃ rest : List Repo,
      List.Perm
        (cross_encoder_rerank (fun ps => ps.map (fun p => (p.2.length : ℚ))) "q"
            [cA, cB] 1 ++ rest)
        (scoredCandidates (fun ps => ps.map (fun p => (p.2.length : ℚ))) "q"
          [cA, cB]) ∧
      ∀ a ∈ cross_encoder_rerank (fun ps => ps.map (fun p => (p.2.length : ℚ)))
          "q" [cA, cB] 1,
        ∀ b ∈ rest, ceKey b ≤ ceKey a) :=
  cross_encoder_rerank_cap_postcondition
    (fun ps => ps.map (fun p => (p.2.length : ℚ))) "q" [cA, cB] 1
    (fun ps => by simp)

/-!
### Claim C4: fusion weights and the unique-maximum candidate
-/

/-- Over the active candidate set, the normalizer sends the strict maximum
of a signal to exactly `1` (some second, strictly smaller candidate forces
`max > min`). -/
lemma normalize_at_unique_max (key : Repo → ℚ) (l : List Repo) (r : Repo)
    (hr : r ∈ l) (hex : ∃ x ∈ l, x ≠ r)
    (hmax : ∀ x ∈ l, x ≠ r → key x < key r) :
    normalize (key r) (listMin (l.map key)) (listMax (l.map key)) = 1 := by
  have hmem : key r ∈ l.map key := List.mem_map_of_mem key hr
  have hmax_eq : listMax (l.map key) = key r := by
    have h1 : key r ≤ listMax (l.map key) := mem_le_listMax hmem
    have h2 : listMax (l.map key) ∈ l.map key := by
      refine listMax_mem ?_
      intro hnil
      rw [hnil] at hmem
      cases hmem
    obtain ⟨x, hx, hxe⟩ := List.mem_map.mp h2
    by_cases hxr : x = r
    · rw [← hxe, hxr]
    · rw [← hxe] at h1
      exact absurd h1 (not_le.mpr (hmax x hx hxr))
  obtain ⟨y, hy, hyr⟩ := hex
  have hmin_lt : listMin (l.map key) < listMax (l.map key) := by
    calc listMin (l.map key) ≤ key y := listMin_le_mem (List.mem_map_of_mem key hy)
    _ < key r := hmax y hy hyr
    _ = listMax (l.map key) := hmax_eq.symm
  have hne0 : listMax (l.map key) - listMin (l.map key) ≠ 0 :=
    sub_ne_zero_of_ne (ne_of_gt hmin_lt)
  rw [normalize, if_neg hne0, hmax_eq]
  rw [hmax_eq] at hne0
  exact div_self hne0

/-- Claim C4: the four fusion weights `0.3, 0.2, 0.2, 0.3` sum to `1`, and
a candidate that (in the presence of at least one other candidate) is the
strict maximum on all four raw signals — semantic similarity, reranker
score, activity score (default `-100` when absent, via `actKey`), and
stars (hence `log(stars+1)` for the strictly monotone log) — receives
fused score exactly `1`. -/
theorem fusion_weights_and_unique_max (log : ℕ → ℚ)
    (hlog : ∀ a b : ℕ, a < b → log a < log b)
    (l : List Repo) (r : Repo) (hr : r ∈ l)
    (hex : ∃ x ∈ l, x ≠ r)
    (hmax : ∀ x ∈ l, x ≠ r →
      simKey x < simKey r ∧ ceKey x < ceKey r ∧ actKey x < actKey r ∧
        x.stars < r.stars) :
    (0.3 : ℚ) + 0.2 + 0.2 + 0.3 = 1 ∧ fusedScore log l r = 1 := by
  refine ⟨by norm_num, ?_⟩
  have h1 := normalize_at_unique_max simKey l r hr hex
    (fun x hx hxr => (hmax x hx hxr).1)
  have h2 := normalize_at_unique_max ceKey l r hr hex
    (fun x hx hxr => (hmax x hx hxr).2.1)
  have h3 := normalize_at_unique_max actKey l r hr hex
    (fun x hx hxr => (hmax x hx hxr).2.2.1)
  have h4 := normalize_at_unique_max (logStarKey log) l r hr hex
    (fun x hx hxr => hlog _ _ (Nat.add_lt_add_right (hmax x hx hxr).2.2.2 1))
  simp only [fusedScore]
  rw [h1, h2, h3, h4]
  norm_num

/-- Witness for C4: `wB` strictly dominates `wA` on all four raw signals
and gets fused score exactly `1` (with the strictly monotone stand-in
log `n ↦ n`). -/
theorem fusion_weights_and_unique_max_witness :
    (0.3 : ℚ) + 0.2 + 0.2 + 0.3 = 1 ∧
    fusedScore (fun n => (n : ℚ)) [wA, wB] wB = 1 := by
  refine fusion_weights_and_unique_max (fun n => (n : ℚ))
    (fun a b h => show (a : ℚ) < (b : ℚ) from Nat.cast_lt.mpr h) [wA, wB] wB (by simp)
    ⟨wA, by simp, ?_⟩ ?_
  · simp [wA, wB, cA]
  · intro x hx hxr
    rcases List.mem_cons.mp hx with rfl | hx
    · refine ⟨?_, ?_, ?_, ?_⟩ <;> norm_num [simKey, ceKey, actKey, wA, wB, cA]
    · rw [List.mem_singleton] at hx
      subst hx
      exact absurd rfl hxr

/-!
### Claim C1: dense-retrieval cardinality (corrected)
-/

lemma annotateSimsFrom_length (sims : List ℚ) (t : List ℕ) :
    ∀ (i : ℕ) (l : List Repo), (annotateSimsFrom sims t i l).length = l.length
  | _, [] => rfl
  | i, r :: rs => by
      simp [annotateSimsFrom, annotateSimsFrom_length sims t (i + 1) rs]

/-- Counting the annotated candidates: starting at position `i`, the
candidates that end up with a similarity are exactly the positions in
`range' i n` that the search returned. -/
lemma countP_annotateSimsFrom (sims : List ℚ) (t : List ℕ) :
    ∀ (i : ℕ) (l : List Repo), (∀ r ∈ l, r.semantic_similarity = none) →
      (annotateSimsFrom sims t i l).countP (fun r => (r.semantic_similarity).isSome) =
        ((List.range' i l.length).filter (fun j => decide (j ∈ t))).length
  | _, [], _ => rfl
  | i, r :: rs, h => by
      have hr : r.semantic_similarity = none := h r (List.mem_cons_self r rs)
      have hrs : ∀ x ∈ rs, x.semantic_similarity = none :=
        fun x hx => h x (List.mem_cons_of_mem r hx)
      rw [annotateSimsFrom, List.countP_cons,
        countP_annotateSimsFrom sims t (i + 1) rs hrs,
        List.length_cons, List.range'_succ, List.filter_cons]
      by_cases hi : i ∈ t
      · simp [hi, hr]
      · simp [hi, hr]

/-- The FAISS result-index array: pairwise-distinct indices, all within
the corpus, `min k n` of them. -/
lemma topKIndices_spec (sims : List ℚ) (k : ℕ) :
    (topKIndices sims k).Nodup ∧ (∀ j ∈ topKIndices sims k, j < sims.length) ∧
      (topKIndices sims k).length = min k sims.length := by
  have hzlen : ((List.range sims.length).zip sims).length = sims.length := by
    simp [List.length_zip]
  have hperm : List.Perm
      ((sortDesc (fun p => p.2) ((List.range sims.length).zip sims)).map Prod.fst)
      (List.range sims.length) := by
    have h2 := (sortDesc_perm (fun p : ℕ × ℚ => p.2)
      ((List.range sims.length).zip sims)).map Prod.fst
    rw [List.map_fst_zip] at h2
    · exact h2
    · simp
  refine ⟨?_, ?_, ?_⟩
  · exact List.Nodup.sublist (List.take_sublist _ _)
      (hperm.nodup_iff.mpr (List.nodup_range _))
  · intro j hj
    exact List.mem_range.mp (hperm.mem_iff.mp (List.mem_of_mem_take hj))
  · rw [topKIndices, List.length_take, List.length_map, sortDesc_length, hzlen]

/-- A duplicate-free, bounded index list is recovered (up to length) by
filtering `range n` for membership. -/
lemma length_filter_range_mem (t : List ℕ) (n : ℕ) (hnd : t.Nodup)
    (hlt : ∀ j ∈ t, j < n) :
    ((List.range n).filter (fun j => decide (j ∈ t))).length = t.length := by
  have hperm : List.Perm ((List.range n).filter (fun j => decide (j ∈ t))) t := by
    refine (List.perm_ext_iff_of_nodup
      (List.Nodup.filter _ (List.nodup_range n)) hnd).mpr ?_
    intro a
    simp only [List.mem_filter, List.mem_range, decide_eq_true_eq]
    exact ⟨fun h => h.2, fun h => ⟨hlt a h, h⟩⟩
  exact hperm.length_eq

/-- On a non-empty corpus the stage returns as many candidates as the
whole corpus (line 211 sorts `state.repositories`, not the `k` hits). -/
lemma dense_retrieval_length (encode : String → List ℚ) (q : String) (k : ℕ)
    (l : List Repo) (hne : l ≠ []) :
    (dense_retrieval encode q k l).length = l.length := by
  have hE : (l.map (fun r => r.combined_doc)).isEmpty = false := by
    cases l with
    | nil => exact absurd rfl hne
    | cons a l => rfl
  have hd : dense_retrieval encode q k l =
      sortDesc simKey (annotateSims l
        (((l.map (fun r => r.combined_doc)).map encode).map
          (fun v => inner_product v (encode q)))
        (topKIndices
          (((l.map (fun r => r.combined_doc)).map encode).map
            (fun v => inner_product v (encode q)))
          (min k ((l.map (fun r => r.combined_doc)).map encode).length))) := by
    rw [dense_retrieval, hE]
    rfl
  rw [hd, sortDesc_length, annotateSims, annotateSimsFrom_length]

/-- Counterexample to C1 as stated: with two documents and `K = 1`, the
stage returns 2 candidates, not `min(K, len(docs)) = 1` — line 211 sorts
`state.repositories` (the whole corpus), not the `k` search hits. -/
theorem dense_retrieval_cardinality_counterexample :
    ¬ ((dense_retrieval (fun _ => [1]) "q" 1 [cA, cB]).length =
        min 1 ([cA, cB] : List Repo).length) := by
  rw [dense_retrieval_length (fun _ => [1]) "q" 1 [cA, cB] (by simp)]
  decide

/-- Claim C1 (amended): on a non-empty corpus of fresh candidates the
stage returns **all** `len(docs)` candidates (sorted by descending
similarity with default `0`), of which exactly `min(K, len(docs))` carry a
similarity annotation; on an empty document list it returns `[]` without
consulting the embedding collaborator (the result is the same for every
`encode`). -/
theorem dense_retrieval_cardinality_amended (encode : String → List ℚ)
    (q : String) (k : ℕ) (l : List Repo) (hne : l ≠ [])
    (hfresh : ∀ r ∈ l, r.semantic_similarity = none) :
    (dense_retrieval encode q k l).length = l.length ∧
    (dense_retrieval encode q k l).countP (fun r => (r.semantic_similarity).isSome) =
      min k l.length ∧
    (∀ e : String → List ℚ, dense_retrieval e q k [] = []) := by
  have hE : (l.map (fun r => r.combined_doc)).isEmpty = false := by
    cases l with
    | nil => exact absurd rfl hne
    | cons a l => rfl
  have hd : dense_retrieval encode q k l =
      sortDesc simKey (annotateSims l
        (((l.map (fun r => r.combined_doc)).map encode).map
          (fun v => inner_product v (encode q)))
        (topKIndices
          (((l.map (fun r => r.combined_doc)).map encode).map
            (fun v => inner_product v (encode q)))
          (min k ((l.map (fun r => r.combined_doc)).map encode).length))) := by
    rw [dense_retrieval, hE]
    rfl
  set sims := ((l.map (fun r => r.combined_doc)).map encode).map
    (fun v => inner_product v (encode q)) with hsims
  have hsimslen : sims.length = l.length := by
    simp [hsims]
  have hembl : ((l.map (fun r => r.combined_doc)).map encode).length = l.length := by
    simp
  set t := topKIndices sims (min k l.length) with ht
  have hd2 : dense_retrieval encode q k l = sortDesc simKey (annotateSims l sims t) := by
    rw [hd, hembl]
  obtain ⟨hnd, hbnd, hlen⟩ := topKIndices_spec sims (min k l.length)
  refine ⟨dense_retrieval_length encode q k l hne, ?_, fun e => rfl⟩
  rw [hd2, (sortDesc_perm simKey (annotateSims l sims t)).countP_eq,
    annotateSims, countP_annotateSimsFrom sims t 0 l hfresh,
    ← List.range_eq_range',
    length_filter_range_mem t l.length hnd
      (fun j hj => hsimslen ▸ hbnd j hj),
    hlen, hsimslen]
  omega

/-- Witness for the amended C1 at a concrete two-candidate corpus with
`K = 1`. -/
theorem dense_retrieval_cardinality_amended_witness :
    (dense_retrieval (fun _ => [1]) "q" 1 [cA, cB]).length =
      ([cA, cB] : List Repo).length ∧
    (dense_retrieval (fun _ => [1]) "q" 1 [cA, cB]).countP
        (fun r => (r.semantic_similarity).isSome) =
      min 1 ([cA, cB] : List Repo).length ∧
    (∀ e : String → List ℚ, dense_retrieval e "q" 1 [] = []) :=
  dense_retrieval_cardinality_amended (fun _ => [1]) "q" 1 [cA, cB]
    (by simp) (by simp [cA, cB])

end DeepGit
